import Mathlib

/-!
Verification of the itinerary backend core (src/main.py, src/schemas.py).

The embedding below translates the planner functions of `main.py`:
`haversine_km` (lines 61-67), `order_by_proximity` (lines 71-86) and the
day-partition loop of the `generate_itinerary` endpoint (lines 119-166).
Machine floats are modelled by exact reals; Python lists by `List`.
-/

/-- The point dictionaries handed to the planner (main.py lines 127-136):
`_id` stringified, `name`, `latitude`, `longitude`, `category`. -/
structure PlacePoint where
  id : String
  name : String
  latitude : ℝ
  longitude : ℝ
  category : Option String

noncomputable instance : Inhabited PlacePoint := ⟨⟨"", "", 0, 0, none⟩⟩

/-- Python `math.radians`: degrees to radians. -/
noncomputable def radians (x : ℝ) : ℝ := x * Real.pi / 180

/-- Python `math.atan2 y x` over exact reals. -/
noncomputable def atan2 (y x : ℝ) : ℝ :=
  if 0 < x then Real.arctan (y / x)
  else if x < 0 then
    (if 0 ≤ y then Real.arctan (y / x) + Real.pi else Real.arctan (y / x) - Real.pi)
  else
    (if 0 < y then Real.pi / 2 else if y < 0 then -(Real.pi / 2) else 0)

/-- `haversine_km` (main.py lines 61-67).  Note the source computes
`sqrt(1 - a)` directly, with no clamping of `1 - a`; over exact reals
`Real.sqrt` is total, which is why this model is total as well. -/
noncomputable def haversine_km (lat1 lon1 lat2 lon2 : ℝ) : ℝ :=
  let R : ℝ := 6371.0
  let dlat := radians (lat2 - lat1)
  let dlon := radians (lon2 - lon1)
  let a := Real.sin (dlat / 2) ^ 2 +
    Real.cos (radians lat1) * Real.cos (radians lat2) * Real.sin (dlon / 2) ^ 2
  let c := 2 * atan2 (Real.sqrt a) (Real.sqrt (1 - a))
  R * c

/-- Distance between two point dicts, as called at main.py line 81. -/
noncomputable def pointDist (p q : PlacePoint) : ℝ :=
  haversine_km p.latitude p.longitude q.latitude q.longitude

/-- The scan of main.py lines 79-84: running over `remaining` with the
current element index `i` and accumulator `(idx, best)`; `best = none`
encodes Python's initial `best = None`, and the update fires exactly when
`best is None or dist < best`. -/
noncomputable def findBest (last : PlacePoint) :
    List PlacePoint → ℕ → ℕ × Option ℝ → ℕ × Option ℝ
  | [], _, acc => acc
  | p :: t, i, acc =>
    let d := pointDist last p
    let acc2 := match acc.2 with
      | none => (i, some d)
      | some best => if d < best then (i, some d) else acc
    findBest last t (i + 1) acc2

/-- The index chosen by the scan (`idx` after the `for` loop at line 84). -/
noncomputable def selectIdx (last : PlacePoint) (rem : List PlacePoint) : ℕ :=
  (findBest last rem 0 (0, none)).1

/-- The `while remaining:` loop of main.py lines 76-85, with the most
recently appended point passed as `last` (the source reads it back as
`ordered[-1]`).  Each iteration removes exactly one element, so fuel equal
to the initial length of `remaining` runs the loop to completion. -/
noncomputable def greedyFuel : ℕ → PlacePoint → List PlacePoint → List PlacePoint
  | 0, _, _ => []
  | fuel + 1, last, rem =>
    if rem.isEmpty then []
    else
      let idx := selectIdx last rem
      let chosen := rem.getD idx default
      chosen :: greedyFuel fuel chosen (rem.eraseIdx idx)

/-- `order_by_proximity` (main.py lines 71-86): seed with the first input
point (`ordered = [remaining.pop(0)]`), then run the greedy loop. -/
noncomputable def order_by_proximity : List PlacePoint → List PlacePoint
  | [] => []
  | p :: t => p :: greedyFuel t.length p t

/-- `DayPlan` (schemas.py lines 56-58). -/
structure DayPlan where
  day : ℕ
  place_ids : List String
deriving DecidableEq

/-- `Itinerary` (schemas.py lines 60-69); the start date is opaque here. -/
structure Itinerary where
  user_id : String
  title : String
  start_date : Option String
  days : List DayPlan
  total_distance_km : ℝ

/-- `per_day` (main.py line 141):
`max(1, len(ordered) // req.days + (1 if len(ordered) % req.days else 0))`. -/
def perDay (n days : ℕ) : ℕ :=
  max 1 (n / days + (if n % days ≠ 0 then 1 else 0))

/-- The inner distance loop of main.py lines 150-154: the sum of
consecutive-point distances within one day slice. -/
noncomputable def pathDistance : List PlacePoint → ℝ
  | [] => 0
  | [_] => 0
  | p :: q :: t => pointDist p q + pathDistance (q :: t)

/-- The `for i in range(req.days)` loop of main.py lines 145-155, counting
down the remaining iterations in the second argument; it returns the
emitted `DayPlan`s together with the accumulated `total_distance`.
The slice is `ordered[i*per_day : (i+1)*per_day]`, and an empty slice with
`i >= 1` breaks out of the loop. -/
noncomputable def dayLoop (ordered : List PlacePoint) (pd : ℕ) :
    ℕ → ℕ → List DayPlan × ℝ
  | _, 0 => ([], 0)
  | i, rem + 1 =>
    let day_places := (ordered.drop (i * pd)).take pd
    if day_places.isEmpty ∧ 1 ≤ i then ([], 0)
    else
      let rest := dayLoop ordered pd (i + 1) rem
      (⟨i + 1, day_places.map PlacePoint.id⟩ :: rest.1, pathDistance day_places + rest.2)

/-- Round half to even, the tie rule of Python's builtin `round`. -/
noncomputable def roundHalfEven (x : ℝ) : ℤ :=
  if Int.fract x < 1 / 2 then ⌊x⌋
  else if 1 / 2 < Int.fract x then ⌊x⌋ + 1
  else if Even ⌊x⌋ then ⌊x⌋ else ⌊x⌋ + 1

/-- Python `round(x, 2)` as used at main.py line 162, over exact reals. -/
noncomputable def pyRound2 (x : ℝ) : ℝ := (roundHalfEven (x * 100) : ℝ) / 100

/-- A raw `place` document as fetched by `get_documents` (main.py line 122);
fields per schemas.py lines 44-54 plus the Mongo `_id`. -/
structure PlaceDoc where
  oid : String
  user_id : String
  name : String
  latitude : ℝ
  longitude : ℝ
  category : Option String
  doc_notes : Option String

/-- The projection of main.py lines 127-136 building `place_points`. -/
def PlaceDoc.toPoint (d : PlaceDoc) : PlacePoint :=
  ⟨d.oid, d.name, d.latitude, d.longitude, d.category⟩

/-- `GenerateRequest` (main.py lines 98-102); pydantic bounds `days` to
`[1, 14]`, which appears as a hypothesis where needed. -/
structure GenerateRequest where
  user_id : String
  days : ℕ
  start_date : Option String
  title : Option String

/-- An `HTTPException` raised by the endpoint: status code and detail. -/
structure ApiError where
  status_code : ℕ
  detail : String
deriving DecidableEq

/-- The `POST /api/itineraries/generate` handler (main.py lines 119-166),
parameterised by the documents returned by `get_documents("place", ...)`.
`Except.error` models the raised `HTTPException` (nothing after it runs);
`Except.ok` carries the `Itinerary` that is then passed to
`create_document("itinerary", ...)`. -/
noncomputable def generate_itinerary (req : GenerateRequest) (places : List PlaceDoc) :
    Except ApiError Itinerary :=
  if places.isEmpty then
    Except.error ⟨400, "No saved places found for this user"⟩
  else
    let place_points := places.map PlaceDoc.toPoint
    let ordered := order_by_proximity place_points
    let pd := perDay ordered.length req.days
    let result := dayLoop ordered pd 0 req.days
    Except.ok ⟨req.user_id, req.title.getD "Smart Itinerary", req.start_date, result.1,
      pyRound2 result.2⟩

/-- The `create_document("itinerary", ...)` calls performed by one request:
the call at main.py line 165 runs only when no exception was raised. -/
def createdItineraries : Except ApiError Itinerary → List Itinerary
  | Except.error _ => []
  | Except.ok it => [it]

/-- Spec-side quantity for the total distance: the sum, over each emitted
day, of the consecutive-point distances within that day's slice only. -/
noncomputable def intraDayTotal (ordered : List PlacePoint) (pd numDays : ℕ) : ℝ :=
  ((List.range numDays).map (fun i => pathDistance ((ordered.drop (i * pd)).take pd))).sum

/-- A heap of Python list objects, for mutation reasoning: addresses index
into `lists`, reads of unallocated addresses default to `[]`. -/
structure Heap where
  lists : List (List PlacePoint)

def Heap.read (h : Heap) (a : ℕ) : List (PlacePoint) := h.lists.getD a []

def Heap.write (h : Heap) (a : ℕ) (v : List PlacePoint) : Heap := ⟨h.lists.set a v⟩

def Heap.alloc (h : Heap) (v : List PlacePoint) : Heap × ℕ :=
  (⟨h.lists ++ [v]⟩, h.lists.length)

/-- The `while remaining:` loop of main.py lines 76-85 acting on the heap:
`remaining.pop(idx)` writes the list at `remA`, `ordered.append` writes the
list at `ordA`; no other object is touched. -/
noncomputable def obpLoopHeap : ℕ → Heap → ℕ → ℕ → Heap
  | 0, h, _, _ => h
  | fuel + 1, h, remA, ordA =>
    let rem := h.read remA
    if rem.isEmpty then h
    else
      let ord := h.read ordA
      let last := ord.getLastD default
      let idx := selectIdx last rem
      let chosen := rem.getD idx default
      let h1 := h.write remA (rem.eraseIdx idx)
      let h2 := h1.write ordA (ord ++ [chosen])
      obpLoopHeap fuel h2 remA ordA

/-- `order_by_proximity` with Python object mutation made explicit: the
caller's list lives at `pointsA`; `remaining = points.copy()` allocates a
fresh list (line 74), `ordered = [remaining.pop(0)]` allocates another and
pops the head (line 75), then the loop runs.  Returns the final heap and
the address of the result list. -/
noncomputable def order_by_proximity_heap (h : Heap) (pointsA : ℕ) : Heap × ℕ :=
  let pts := h.read pointsA
  if pts.isEmpty then h.alloc []
  else
    let ar := h.alloc pts
    let h1 := ar.1
    let remA := ar.2
    let ao := h1.alloc [pts.headD default]
    let h2 := ao.1
    let ordA := ao.2
    let h3 := h2.write remA pts.tail
    (obpLoopHeap pts.tail.length h3 remA ordA, ordA)

/-- Sample point used by concrete witnesses. -/
noncomputable def samplePoint (s : String) : PlacePoint := ⟨s, s, 0, 0, none⟩

/-- Sample place document used by concrete witnesses. -/
noncomputable def sampleDoc (s : String) : PlaceDoc := ⟨s, "u", s, 0, 0, none, none⟩

/-! ### The scan of lines 79-84: unfolding equations and index bound -/

theorem findBest_nil (last : PlacePoint) (i : ℕ) (acc : ℕ × Option ℝ) :
    findBest last [] i acc = acc := by
  simp [findBest]

theorem findBest_cons (last p : PlacePoint) (t : List PlacePoint) (i j : ℕ) (b : ℝ) :
    findBest last (p :: t) i (j, some b) =
      if pointDist last p < b then findBest last t (i + 1) (i, some (pointDist last p))
      else findBest last t (i + 1) (j, some b) := by
  by_cases hd : pointDist last p < b <;> simp [findBest, hd]

theorem findBest_cons_none (last p : PlacePoint) (t : List PlacePoint) (i j : ℕ) :
    findBest last (p :: t) i (j, none) =
      findBest last t (i + 1) (i, some (pointDist last p)) := by
  simp [findBest]

theorem findBest_fst_bound (last : PlacePoint) :
    ∀ (l : List PlacePoint) (i j : ℕ) (b : ℝ),
      (findBest last l i (j, some b)).1 = j ∨
        (i ≤ (findBest last l i (j, some b)).1 ∧
          (findBest last l i (j, some b)).1 < i + l.length)
  | [], i, j, b => by simp [findBest]
  | p :: t, i, j, b => by
    rw [findBest_cons]
    by_cases hd : pointDist last p < b
    · rw [if_pos hd]
      rcases findBest_fst_bound last t (i + 1) i (pointDist last p) with h | ⟨h1, h2⟩
      · right
        rw [h]
        simp only [List.length_cons]
        omega
      · right
        simp only [List.length_cons]
        omega
    · rw [if_neg hd]
      rcases findBest_fst_bound last t (i + 1) j b with h | ⟨h1, h2⟩
      · left; exact h
      · right
        simp only [List.length_cons]
        omega

theorem selectIdx_lt (last : PlacePoint) (rem : List PlacePoint) (h : rem ≠ []) :
    selectIdx last rem < rem.length := by
  match rem, h with
  | p :: t, _ =>
    unfold selectIdx
    rw [findBest_cons_none]
    rcases findBest_fst_bound last t (0 + 1) 0 (pointDist last p) with h1 | ⟨h1, h2⟩
    · rw [h1]; simp
    · simp only [List.length_cons]; omega

/-! ### Permutation facts about the greedy loop -/

theorem getD_cons_eraseIdx_perm {α : Type} [Inhabited α] :
    ∀ (l : List α) (i : ℕ), i < l.length → (l.getD i default :: l.eraseIdx i).Perm l
  | a :: t, 0, _ => by simp
  | a :: t, i + 1, h => by
    simp only [List.getD_cons_succ, List.eraseIdx_cons_succ]
    have ih := getD_cons_eraseIdx_perm t i (by simpa using h)
    exact (List.Perm.swap a (t.getD i default) (t.eraseIdx i)).trans (ih.cons a)

theorem greedyFuel_perm :
    ∀ (fuel : ℕ) (last : PlacePoint) (rem : List PlacePoint), rem.length ≤ fuel →
      (greedyFuel fuel last rem).Perm rem
  | 0, _, rem, h => by
    have hr : rem = [] := List.length_eq_zero.mp (Nat.le_zero.mp h)
    simp [greedyFuel, hr]
  | fuel + 1, last, rem, h => by
    by_cases hr : rem = []
    · simp [greedyFuel, hr]
    · have hlt := selectIdx_lt last rem hr
      have hlen : (rem.eraseIdx (selectIdx last rem)).length ≤ fuel := by
        rw [List.length_eraseIdx]
        simp only [if_pos hlt]
        omega
      have ih := greedyFuel_perm fuel (rem.getD (selectIdx last rem) default)
        (rem.eraseIdx (selectIdx last rem)) hlen
      have hne : rem.isEmpty = false := List.isEmpty_eq_false.mpr hr
      simp only [greedyFuel, hne, Bool.false_eq_true, if_false]
      exact (ih.cons _).trans (getD_cons_eraseIdx_perm rem _ hlt)

theorem order_by_proximity_perm (pts : List PlacePoint) :
    (order_by_proximity pts).Perm pts := by
  match pts with
  | [] => simp [order_by_proximity]
  | p :: t =>
    simp only [order_by_proximity]
    exact (greedyFuel_perm t.length p t le_rfl).cons p

/-- Claim C2: for every non-empty input collection, `order_by_proximity`
returns a permutation of the input: same length and same multiset of points
and of ids, with no element lost and none duplicated. -/
theorem order_by_proximity_is_permutation (pts : List PlacePoint) (h : pts ≠ []) :
    (order_by_proximity pts).Perm pts ∧
      (order_by_proximity pts).length = pts.length ∧
      ((order_by_proximity pts).map PlacePoint.id).Perm (pts.map PlacePoint.id) :=
  ⟨order_by_proximity_perm pts, (order_by_proximity_perm pts).length_eq,
    (order_by_proximity_perm pts).map PlacePoint.id⟩

theorem order_by_proximity_is_permutation_witness :
    (([samplePoint "a", samplePoint "b"] : List PlacePoint) ≠ []) ∧
      ((order_by_proximity [samplePoint "a", samplePoint "b"]).Perm
          [samplePoint "a", samplePoint "b"] ∧
        (order_by_proximity [samplePoint "a", samplePoint "b"]).length =
          ([samplePoint "a", samplePoint "b"] : List PlacePoint).length ∧
        ((order_by_proximity [samplePoint "a", samplePoint "b"]).map PlacePoint.id).Perm
          ([samplePoint "a", samplePoint "b"].map PlacePoint.id)) :=
  ⟨by simp, order_by_proximity_is_permutation [samplePoint "a", samplePoint "b"] (by simp)⟩

/-- Claim C9: passing an empty collection directly into the planner returns
an empty list with no error, and a single-point collection returns the
single-element list containing that point. -/
theorem order_by_proximity_empty_single :
    order_by_proximity [] = [] ∧ ∀ p : PlacePoint, order_by_proximity [p] = [p] := by
  refine ⟨by simp [order_by_proximity], fun p => ?_⟩
  simp [order_by_proximity, greedyFuel]

/-- Claim C8: a generate request with zero saved places is rejected with
HTTP 400 and a descriptive message before the planner is invoked, and no
itinerary document is ever created. -/
theorem generate_rejects_empty_places (req : GenerateRequest) (places : List PlaceDoc)
    (h : places = []) :
    generate_itinerary req places =
        Except.error ⟨400, "No saved places found for this user"⟩ ∧
      createdItineraries (generate_itinerary req places) = [] := by
  subst h
  refine ⟨by simp [generate_itinerary], ?_⟩
  simp [generate_itinerary, createdItineraries]

theorem generate_rejects_empty_places_witness :
    (([] : List PlaceDoc) = []) ∧
      (generate_itinerary ⟨"u", 3, none, none⟩ [] =
          Except.error ⟨400, "No saved places found for this user"⟩ ∧
        createdItineraries (generate_itinerary ⟨"u", 3, none, none⟩ []) = []) :=
  ⟨rfl, generate_rejects_empty_places ⟨"u", 3, none, none⟩ [] rfl⟩

/-! ### Heap reasoning: the planner never mutates the caller's list -/

theorem Heap.read_write_ne (h : Heap) (a b : ℕ) (v : List PlacePoint) (hab : a ≠ b) :
    (h.write b v).read a = h.read a := by
  simp only [Heap.read, Heap.write]
  rw [List.getD_eq_getElem?_getD, List.getD_eq_getElem?_getD,
    List.getElem?_set_ne (by omega)]

theorem Heap.read_alloc (h : Heap) (v : List PlacePoint) (a : ℕ)
    (ha : a < h.lists.length) :
    ((h.alloc v).1).read a = h.read a := by
  simp only [Heap.read, Heap.alloc]
  exact List.getD_append _ _ _ a ha

theorem obpLoopHeap_read_other :
    ∀ (fuel : ℕ) (h : Heap) (remA ordA a : ℕ), a ≠ remA → a ≠ ordA →
      (obpLoopHeap fuel h remA ordA).read a = h.read a
  | 0, h, remA, ordA, a, _, _ => rfl
  | fuel + 1, h, remA, ordA, a, h1, h2 => by
    by_cases hr : (h.read remA).isEmpty = true
    · simp [obpLoopHeap, hr]
    · simp only [obpLoopHeap, hr, Bool.false_eq_true, if_false]
      rw [obpLoopHeap_read_other fuel _ remA ordA a h1 h2,
        Heap.read_write_ne _ _ _ _ h2, Heap.read_write_ne _ _ _ _ h1]

/-- Claim C10: `order_by_proximity` does not mutate its argument: after the
call, the list at the caller's address holds exactly the elements it held
before, in the same order (the source copies the list at line 74 and pops
only from the copy). -/
theorem order_by_proximity_no_mutation (h : Heap) (pointsA : ℕ)
    (hA : pointsA < h.lists.length) :
    ((order_by_proximity_heap h pointsA).1).read pointsA = h.read pointsA := by
  by_cases he : (h.read pointsA).isEmpty = true
  · simp only [order_by_proximity_heap, he, if_true]
    exact Heap.read_alloc h [] pointsA hA
  · have hremA : (h.alloc (h.read pointsA)).2 = h.lists.length := rfl
    have hordA : ((h.alloc (h.read pointsA)).1.alloc [(h.read pointsA).headD default]).2
        = h.lists.length + 1 := by
      simp [Heap.alloc]
    simp only [order_by_proximity_heap, he, Bool.false_eq_true, if_false]
    rw [obpLoopHeap_read_other _ _ _ _ _ (by rw [hremA]; omega) (by rw [hordA]; omega)]
    rw [Heap.read_write_ne _ _ _ _ (by rw [hremA]; omega)]
    rw [Heap.read_alloc _ _ _ (by simp [Heap.alloc]; omega)]
    exact Heap.read_alloc h _ pointsA hA

theorem order_by_proximity_no_mutation_witness :
    (0 < (Heap.mk [[samplePoint "a"]]).lists.length) ∧
      ((order_by_proximity_heap (Heap.mk [[samplePoint "a"]]) 0).1).read 0 =
        (Heap.mk [[samplePoint "a"]]).read 0 :=
  ⟨by simp, order_by_proximity_no_mutation (Heap.mk [[samplePoint "a"]]) 0 (by simp)⟩

/-! ### Day partitioning -/

theorem perDay_pos (n days : ℕ) : 1 ≤ perDay n days := le_max_left 1 _

theorem le_days_mul_perDay (n days : ℕ) (h : 1 ≤ days) : n ≤ days * perDay n days := by
  unfold perDay
  by_cases hm : n % days = 0
  · rw [if_neg (by simp [hm])]
    have h1 : days * (n / days) = n := Nat.mul_div_cancel' (Nat.dvd_of_mod_eq_zero hm)
    calc n = days * (n / days) := h1.symm
    _ ≤ days * max 1 (n / days + 0) := Nat.mul_le_mul_left days (by omega)
  · rw [if_pos hm]
    have h3 := Nat.div_add_mod n days
    have h4 : n % days < days := Nat.mod_lt n (by omega)
    have h5 : max 1 (n / days + 1) = n / days + 1 :=
      max_eq_right (Nat.succ_le_succ (Nat.zero_le _))
    rw [h5]
    calc n = days * (n / days) + n % days := h3.symm
    _ ≤ days * (n / days) + days := by omega
    _ = days * (n / days + 1) := by ring

theorem dayLoop_flatten (ordered : List PlacePoint) (pd : ℕ) (hpd : 1 ≤ pd) :
    ∀ (rem i : ℕ), ordered.length ≤ (i + rem) * pd →
      (((dayLoop ordered pd i rem).1).map DayPlan.place_ids).flatten =
        (ordered.drop (i * pd)).map PlacePoint.id
  | 0, i, h => by
    simp only [dayLoop, List.map_nil, List.flatten_nil]
    rw [List.drop_eq_nil_of_le (by simpa using h)]
    simp
  | rem + 1, i, h => by
    by_cases hbreak : (((ordered.drop (i * pd)).take pd).isEmpty = true ∧ 1 ≤ i)
    · have hnil : ordered.drop (i * pd) = [] := by
        rcases List.take_eq_nil_iff.mp (List.isEmpty_iff.mp hbreak.1) with h0 | h0
        · omega
        · exact h0
      simp only [dayLoop]
      rw [if_pos hbreak, hnil]
      simp
    · simp only [dayLoop]
      rw [if_neg hbreak]
      have ih := dayLoop_flatten ordered pd hpd rem (i + 1) (by
        have : (i + (rem + 1)) * pd = (i + 1 + rem) * pd := by ring
        omega)
      simp only [List.map_cons, List.flatten_cons]
      rw [ih]
      rw [← List.map_append]
      congr 1
      have hsucc : (i + 1) * pd = i * pd + pd := by ring
      rw [hsucc, ← List.drop_drop, List.take_append_drop]

theorem dayLoop_pd1 (ordered : List PlacePoint) :
    ∀ (rem i : ℕ), (i = 0 → 1 ≤ ordered.length) →
      (dayLoop ordered 1 i rem).1.length = min rem (ordered.length - i) ∧
        ∀ dp ∈ (dayLoop ordered 1 i rem).1, dp.place_ids.length = 1
  | 0, i, _ => by simp [dayLoop]
  | rem + 1, i, hi => by
    by_cases hlt : i < ordered.length
    · have hne : ordered.drop (i * 1) ≠ [] := by
        intro hx
        have := congrArg List.length hx
        simp only [List.length_drop, List.length_nil] at this
        omega
      have hcond : ¬((((ordered.drop (i * 1)).take 1).isEmpty = true) ∧ 1 ≤ i) := by
        rintro ⟨hx, -⟩
        rcases List.take_eq_nil_iff.mp (List.isEmpty_iff.mp hx) with h0 | h0
        · omega
        · exact hne h0
      have ih := dayLoop_pd1 ordered rem (i + 1) (by omega)
      simp only [dayLoop]
      rw [if_neg hcond]
      constructor
      · simp only [List.length_cons]
        rw [ih.1]
        omega
      · intro dp hdp
        rcases List.mem_cons.mp hdp with h0 | h0
        · subst h0
          simp only [List.length_map, List.length_take, List.length_drop]
          omega
        · exact ih.2 dp h0
    · have hge : ordered.length ≤ i := by omega
      have hi1 : 1 ≤ i := by
        by_contra hc
        have : i = 0 := by omega
        have := hi this
        omega
      have hnil : ordered.drop (i * 1) = [] := List.drop_eq_nil_of_le (by omega)
      have hcond : ((((ordered.drop (i * 1)).take 1).isEmpty = true) ∧ 1 ≤ i) := by
        rw [hnil]
        exact ⟨rfl, hi1⟩
      simp only [dayLoop]
      rw [if_pos hcond]
      constructor
      · simp only [List.length_nil]
        omega
      · intro dp hdp
        simp at hdp

/-- Claim C1: for every non-empty ordered route and every positive day
count, the concatenation of the emitted DayPlan place-id sequences, in day
order, equals the id sequence of the full ordered route — no place omitted,
none duplicated. -/
theorem day_partition_reconstructs_route (ordered : List PlacePoint) (days : ℕ)
    (h1 : ordered ≠ []) (h2 : 1 ≤ days) :
    (((dayLoop ordered (perDay ordered.length days) 0 days).1).map DayPlan.place_ids).flatten
      = ordered.map PlacePoint.id := by
  have hmain := dayLoop_flatten ordered (perDay ordered.length days)
    (perDay_pos ordered.length days) days 0 (by
      rw [Nat.zero_add]
      exact le_days_mul_perDay ordered.length days h2)
  rw [hmain]
  simp

theorem day_partition_reconstructs_route_witness :
    (([samplePoint "a"] : List PlacePoint) ≠ [] ∧ 1 ≤ 1) ∧
      (((dayLoop [samplePoint "a"] (perDay ([samplePoint "a"] : List PlacePoint).length 1)
          0 1).1).map DayPlan.place_ids).flatten =
        [samplePoint "a"].map PlacePoint.id :=
  ⟨⟨by simp, le_refl 1⟩, day_partition_reconstructs_route [samplePoint "a"] 1 (by simp) (le_refl 1)⟩

/-- Claim C4: when the requested day count exceeds the number of saved
places (at least one), the endpoint emits exactly one DayPlan per place,
each holding a single place id, and stops early: 3 places with days=5 give
exactly 3 DayPlans, not 5. -/
theorem days_beyond_points_truncated (req : GenerateRequest) (places : List PlaceDoc)
    (h1 : 1 ≤ places.length) (h2 : places.length < req.days) :
    ∃ it, generate_itinerary req places = Except.ok it ∧
      it.days.length = places.length ∧
      ∀ dp ∈ it.days, dp.place_ids.length = 1 := by
  have hne : places ≠ [] := by
    intro h
    rw [h] at h1
    simp at h1
  have hbe : places.isEmpty = false := List.isEmpty_eq_false.mpr hne
  simp only [generate_itinerary, hbe, Bool.false_eq_true, if_false]
  set pts := places.map PlaceDoc.toPoint with hpts
  set ordered := order_by_proximity pts with hord
  have hlen : ordered.length = places.length := by
    rw [hord, (order_by_proximity_perm pts).length_eq, hpts, List.length_map]
  have hpd : perDay ordered.length req.days = 1 := by
    unfold perDay
    have hdiv : ordered.length / req.days = 0 := Nat.div_eq_of_lt (by omega)
    have hmod : ordered.length % req.days = ordered.length := Nat.mod_eq_of_lt (by omega)
    rw [hdiv, hmod, if_pos (by omega)]
    omega
  rw [hpd]
  refine ⟨_, rfl, ?_, ?_⟩
  · show (dayLoop ordered 1 0 req.days).1.length = places.length
    rw [(dayLoop_pd1 ordered req.days 0 (fun _ => by omega)).1]
    omega
  · show ∀ dp ∈ (dayLoop ordered 1 0 req.days).1, dp.place_ids.length = 1
    exact (dayLoop_pd1 ordered req.days 0 (fun _ => by omega)).2

theorem days_beyond_points_truncated_witness :
    (1 ≤ ([sampleDoc "a", sampleDoc "b", sampleDoc "c"] : List PlaceDoc).length ∧
        ([sampleDoc "a", sampleDoc "b", sampleDoc "c"] : List PlaceDoc).length <
          (GenerateRequest.mk "u" 5 none none).days) ∧
      ∃ it, generate_itinerary ⟨"u", 5, none, none⟩ [sampleDoc "a", sampleDoc "b", sampleDoc "c"]
          = Except.ok it ∧
        it.days.length = ([sampleDoc "a", sampleDoc "b", sampleDoc "c"] : List PlaceDoc).length ∧
        ∀ dp ∈ it.days, dp.place_ids.length = 1 :=
  ⟨⟨by simp, by simp⟩,
    days_beyond_points_truncated ⟨"u", 5, none, none⟩
      [sampleDoc "a", sampleDoc "b", sampleDoc "c"] (by simp) (by simp)⟩

theorem perDay_eq_ceil (n days : ℕ) (h1 : 1 ≤ n) (h2 : 1 ≤ days) :
    perDay n days = (n + days - 1) / days := by
  obtain ⟨q, r, hr, hn⟩ : ∃ q r, r < days ∧ n = days * q + r :=
    ⟨n / days, n % days, Nat.mod_lt n (by omega), (Nat.div_add_mod n days).symm⟩
  have hdiv : n / days = q := by
    rw [hn, Nat.mul_add_div (by omega), Nat.div_eq_of_lt hr]
    omega
  have hmod : n % days = r := by
    rw [hn, Nat.mul_add_mod, Nat.mod_eq_of_lt hr]
  unfold perDay
  rw [hdiv, hmod]
  by_cases hr0 : r = 0
  · subst hr0
    have hq : q ≠ 0 := by
      intro hq0
      rw [hq0] at hn
      omega
    rw [if_neg (by omega)]
    have harg : n + days - 1 = days * q + (days - 1) := by omega
    rw [harg, Nat.mul_add_div (by omega), Nat.div_eq_of_lt (by omega)]
    omega
  · rw [if_pos hr0]
    have hmul : days * (q + 1) = days * q + days := by ring
    have harg : n + days - 1 = days * (q + 1) + (r - 1) := by omega
    rw [harg, Nat.mul_add_div (by omega), Nat.div_eq_of_lt (by omega)]
    omega

/-- Claim C5: the bucket size is `max(1, n/days + (1 if n mod days else 0))`,
which equals the ceiling of n/days whenever n ≥ 1; in particular 5 places
over 2 days give a bucket size of 3, and the two emitted days hold 3 and 2
places respectively. -/
theorem perDay_is_ceiling (n days : ℕ) (h1 : 1 ≤ n) (h2 : 1 ≤ days) :
    perDay n days = (n + days - 1) / days ∧
      perDay 5 2 = 3 ∧
      ∀ ordered : List PlacePoint, ordered.length = 5 →
        ((dayLoop ordered (perDay 5 2) 0 2).1).map (fun dp => dp.place_ids.length)
          = [3, 2] := by
  refine ⟨perDay_eq_ceil n days h1 h2, by decide, ?_⟩
  intro ordered h5
  have hpd : perDay 5 2 = 3 := by decide
  rw [hpd]
  have e0 : ¬(((ordered.drop (0 * 3)).take 3).isEmpty = true ∧ 1 ≤ 0) := by
    rintro ⟨-, hx⟩
    omega
  have hne1 : ordered.drop (1 * 3) ≠ [] := by
    intro hx
    have := congrArg List.length hx
    simp only [List.length_drop, List.length_nil, h5] at this
    omega
  have e1 : ¬(((ordered.drop (1 * 3)).take 3).isEmpty = true ∧ 1 ≤ 1) := by
    rintro ⟨hx, -⟩
    rcases List.take_eq_nil_iff.mp (List.isEmpty_iff.mp hx) with h3 | h3
    · omega
    · exact hne1 h3
  simp only [dayLoop]
  rw [if_neg e0, if_neg e1]
  simp only [List.map_cons, List.map_nil, List.length_map, List.length_take,
    List.length_drop, h5]
  decide

theorem perDay_is_ceiling_witness :
    ((1 ≤ 5 ∧ 1 ≤ 2) : Prop) ∧
      (perDay 5 2 = (5 + 2 - 1) / 2 ∧
        perDay 5 2 = 3 ∧
        ∀ ordered : List PlacePoint, ordered.length = 5 →
          ((dayLoop ordered (perDay 5 2) 0 2).1).map (fun dp => dp.place_ids.length)
            = [3, 2]) :=
  ⟨⟨by decide, by decide⟩, perDay_is_ceiling 5 2 (by decide) (by decide)⟩

/-! ### The accumulated total is the sum of intra-day path distances -/

theorem dayLoop_total (ordered : List PlacePoint) (pd : ℕ) :
    ∀ (rem i : ℕ),
      (dayLoop ordered pd i rem).2 =
        ((List.range (dayLoop ordered pd i rem).1.length).map
          (fun k => pathDistance ((ordered.drop ((i + k) * pd)).take pd))).sum
  | 0, i => by simp [dayLoop]
  | rem + 1, i => by
    by_cases hbreak : (((ordered.drop (i * pd)).take pd).isEmpty = true ∧ 1 ≤ i)
    · simp only [dayLoop]
      rw [if_pos hbreak]
      simp
    · simp only [dayLoop]
      rw [if_neg hbreak]
      simp only [List.length_cons]
      rw [List.range_succ_eq_map]
      simp only [List.map_cons, List.map_map, List.sum_cons]
      rw [dayLoop_total ordered pd rem (i + 1)]
      simp only [Nat.add_zero]
      congr 1
      congr 1
      apply List.map_congr_left
      intro k _
      simp only [Function.comp_apply, Nat.succ_eq_add_one]
      have harg : (i + (k + 1)) * pd = (i + 1 + k) * pd := by ring
      rw [harg]

/-- Claim C6: the itinerary's total distance equals the 2-decimal rounding
of the sum, over every emitted day, of the distance-function values between
consecutive points within that day's slice only; no inter-day hop between
the last point of a day and the first point of the next is counted. -/
theorem total_distance_intra_day_only (req : GenerateRequest) (places : List PlaceDoc)
    (h : places ≠ []) :
    ∃ it, generate_itinerary req places = Except.ok it ∧
      it.total_distance_km =
        pyRound2 (intraDayTotal (order_by_proximity (places.map PlaceDoc.toPoint))
          (perDay (order_by_proximity (places.map PlaceDoc.toPoint)).length req.days)
          it.days.length) := by
  have hbe : places.isEmpty = false := List.isEmpty_eq_false.mpr h
  simp only [generate_itinerary, hbe, Bool.false_eq_true, if_false]
  refine ⟨_, rfl, ?_⟩
  show pyRound2 (dayLoop (order_by_proximity (places.map PlaceDoc.toPoint))
      (perDay (order_by_proximity (places.map PlaceDoc.toPoint)).length req.days)
      0 req.days).2 =
    pyRound2 (intraDayTotal (order_by_proximity (places.map PlaceDoc.toPoint))
      (perDay (order_by_proximity (places.map PlaceDoc.toPoint)).length req.days)
      (dayLoop (order_by_proximity (places.map PlaceDoc.toPoint))
        (perDay (order_by_proximity (places.map PlaceDoc.toPoint)).length req.days)
        0 req.days).1.length)
  rw [dayLoop_total]
  unfold intraDayTotal
  congr 1
  congr 1
  apply List.map_congr_left
  intro k _
  have harg : (0 + k) * (perDay (order_by_proximity (places.map PlaceDoc.toPoint)).length
      req.days) = k * (perDay (order_by_proximity (places.map PlaceDoc.toPoint)).length
      req.days) := by ring
  rw [harg]

theorem total_distance_intra_day_only_witness :
    (([sampleDoc "a"] : List PlaceDoc) ≠ []) ∧
      ∃ it, generate_itinerary ⟨"u", 1, none, none⟩ [sampleDoc "a"] = Except.ok it ∧
        it.total_distance_km =
          pyRound2 (intraDayTotal (order_by_proximity ([sampleDoc "a"].map PlaceDoc.toPoint))
            (perDay (order_by_proximity ([sampleDoc "a"].map PlaceDoc.toPoint)).length
              (GenerateRequest.mk "u" 1 none none).days)
            it.days.length) :=
  ⟨by simp, total_distance_intra_day_only ⟨"u", 1, none, none⟩ [sampleDoc "a"] (by simp)⟩


/-! ### The scan keeps the first minimum: full characterisation -/

theorem findBest_spec (last : PlacePoint) :
    ∀ (l : List PlacePoint) (i j : ℕ) (b : ℝ),
      ∃ b2, (findBest last l i (j, some b)).2 = some b2 ∧ b2 ≤ b ∧
        (∀ k (hk : k < l.length), b2 ≤ pointDist last (l.get ⟨k, hk⟩)) ∧
        (((findBest last l i (j, some b)).1 = j ∧ b2 = b) ∨
          ∃ k, ∃ hk : k < l.length, (findBest last l i (j, some b)).1 = i + k ∧
            b2 = pointDist last (l.get ⟨k, hk⟩) ∧ b2 < b ∧
            ∀ m (hm : m < k), b2 < pointDist last (l.get ⟨m, Nat.lt_trans hm hk⟩))
  | [], i, j, b => by
    refine ⟨b, by simp [findBest], le_refl b, ?_, Or.inl ⟨by simp [findBest], rfl⟩⟩
    intro k hk
    simp at hk
  | p :: t, i, j, b => by
    rw [findBest_cons]
    by_cases hd : pointDist last p < b
    · rw [if_pos hd]
      obtain ⟨b2, heq, hle, hall, hcase⟩ := findBest_spec last t (i + 1) i (pointDist last p)
      refine ⟨b2, heq, le_of_lt (lt_of_le_of_lt hle hd), ?_, ?_⟩
      · intro k hk
        cases k with
        | zero => simpa using hle
        | succ k =>
          rw [List.get_cons_succ]
          exact hall k (by simpa using hk)
      · rcases hcase with ⟨hfst, hb2⟩ | ⟨k, hk, hfst, hb2, hlt, hfirst⟩
        · refine Or.inr ⟨0, by simp, by omega, by simpa using hb2, ?_, ?_⟩
          · rw [hb2]
            exact hd
          · intro m hm
            exact absurd hm (Nat.not_lt_zero m)
        · refine Or.inr ⟨k + 1, by simpa using hk, by omega, ?_, lt_trans hlt hd, ?_⟩
          · rw [List.get_cons_succ]
            exact hb2
          · intro m hm
            cases m with
            | zero => exact hlt
            | succ m =>
              rw [List.get_cons_succ]
              exact hfirst m (by omega)
    · rw [if_neg hd]
      have hbd : b ≤ pointDist last p := not_lt.mp hd
      obtain ⟨b2, heq, hle, hall, hcase⟩ := findBest_spec last t (i + 1) j b
      refine ⟨b2, heq, hle, ?_, ?_⟩
      · intro k hk
        cases k with
        | zero => exact le_trans hle hbd
        | succ k =>
          rw [List.get_cons_succ]
          exact hall k (by simpa using hk)
      · rcases hcase with ⟨hfst, hb2⟩ | ⟨k, hk, hfst, hb2, hlt, hfirst⟩
        · exact Or.inl ⟨hfst, hb2⟩
        · refine Or.inr ⟨k + 1, by simpa using hk, by omega, ?_, hlt, ?_⟩
          · rw [List.get_cons_succ]
            exact hb2
          · intro m hm
            cases m with
            | zero => exact lt_of_lt_of_le hlt hbd
            | succ m =>
              rw [List.get_cons_succ]
              exact hfirst m (by omega)

theorem selectIdx_first_min (last : PlacePoint) (rem : List PlacePoint) (h : rem ≠ []) :
    selectIdx last rem < rem.length ∧
      (∀ j, j < rem.length →
        pointDist last (rem.getD (selectIdx last rem) default) ≤
          pointDist last (rem.getD j default)) ∧
      (∀ m, m < selectIdx last rem →
        pointDist last (rem.getD (selectIdx last rem) default) <
          pointDist last (rem.getD m default)) := by
  match rem, h with
  | p :: t, _ =>
    have hsel : selectIdx last (p :: t) =
        (findBest last t (0 + 1) (0, some (pointDist last p))).1 := by
      unfold selectIdx
      rw [findBest_cons_none]
    obtain ⟨b2, heq, hle, hall, hcase⟩ := findBest_spec last t (0 + 1) 0 (pointDist last p)
    rcases hcase with ⟨hfst, hb2⟩ | ⟨k, hk, hfst, hb2, hlt, hfirst⟩
    · have hs0 : selectIdx last (p :: t) = 0 := by rw [hsel, hfst]
      refine ⟨by simp [hs0], ?_, ?_⟩
      · intro j hj
        rw [hs0, List.getD_cons_zero]
        cases j with
        | zero =>
          rw [List.getD_cons_zero]
        | succ j =>
          rw [List.getD_cons_succ]
          have hj2 : j < t.length := by simpa using hj
          rw [List.getD_eq_getElem t default hj2]
          have hj3 := hall j hj2
          rw [List.get_eq_getElem] at hj3
          calc pointDist last p = b2 := hb2.symm
          _ ≤ _ := hj3
      · intro m hm
        rw [hs0] at hm
        exact absurd hm (Nat.not_lt_zero m)
    · have hs : selectIdx last (p :: t) = k + 1 := by
        rw [hsel, hfst]
        omega
      have hgetsel : (p :: t).getD (selectIdx last (p :: t)) default = t.get ⟨k, hk⟩ := by
        rw [hs, List.getD_cons_succ, List.getD_eq_getElem t default hk, List.get_eq_getElem]
      refine ⟨by rw [hs]; simp only [List.length_cons]; omega, ?_, ?_⟩
      · intro j hj
        rw [hgetsel]
        cases j with
        | zero =>
          rw [List.getD_cons_zero, ← hb2]
          exact hlt.le
        | succ j =>
          rw [List.getD_cons_succ]
          have hj2 : j < t.length := by simpa using hj
          rw [List.getD_eq_getElem t default hj2, ← hb2]
          have hj3 := hall j hj2
          rw [List.get_eq_getElem] at hj3
          exact hj3
      · intro m hm
        rw [hs] at hm
        rw [hgetsel]
        cases m with
        | zero =>
          rw [List.getD_cons_zero, ← hb2]
          exact hlt
        | succ m =>
          rw [List.getD_cons_succ]
          have hm2 : m < k := by omega
          have hmlen : m < t.length := Nat.lt_trans hm2 hk
          rw [List.getD_eq_getElem t default hmlen, ← hb2]
          have hm3 := hfirst m hm2
          rw [List.get_eq_getElem] at hm3
          exact hm3

theorem findBest_const (last : PlacePoint) :
    ∀ (l : List PlacePoint) (i j : ℕ) (b : ℝ),
      (∀ q ∈ l, pointDist last q = b) → findBest last l i (j, some b) = (j, some b)
  | [], _, _, _, _ => rfl
  | p :: t, i, j, b, hc => by
    rw [findBest_cons]
    rw [if_neg (by rw [hc p (by simp)]; exact lt_irrefl b)]
    exact findBest_const last t (i + 1) j b (fun q hq => hc q (List.mem_cons_of_mem p hq))

theorem selectIdx_const (last p : PlacePoint) (t : List PlacePoint)
    (hc : ∀ q ∈ p :: t, pointDist last q = pointDist last p) :
    selectIdx last (p :: t) = 0 := by
  unfold selectIdx
  rw [findBest_cons_none]
  rw [findBest_const last t (0 + 1) 0 (pointDist last p)
    (fun q hq => hc q (List.mem_cons_of_mem p hq))]

theorem greedyFuel_const (p : PlacePoint) :
    ∀ (fuel : ℕ) (rem : List PlacePoint), rem.length = fuel →
      (∀ q ∈ rem, q = p) → greedyFuel fuel p rem = rem
  | 0, rem, hlen, _ => by
    have hnil : rem = [] := List.length_eq_zero.mp hlen
    simp [greedyFuel, hnil]
  | fuel + 1, rem, hlen, hall => by
    match rem with
    | r :: t =>
      have hr : r = p := hall r (by simp)
      have hsel : selectIdx p (r :: t) = 0 := selectIdx_const p r t (by
        intro q hq
        rw [hall q hq, hr])
      simp only [greedyFuel, List.isEmpty_cons, Bool.false_eq_true, if_false]
      rw [hsel, List.getD_cons_zero, List.eraseIdx_cons_zero, hr]
      rw [greedyFuel_const p fuel t (by simpa using hlen)
        (fun q hq => hall q (List.mem_cons_of_mem r hq))]

/-- Claim C7: `order_by_proximity` seeds the route with the first input
point; each step appends the remaining point with minimum distance-function
value to the most recently appended point, and distance ties go to the
point appearing earliest in the current remaining order (the scan keeps the
first minimum found); consequently, when all points are identical, the
input order is preserved. -/
theorem greedy_seed_and_first_min_tie_break :
    (∀ pts : List PlacePoint, pts ≠ [] → (order_by_proximity pts).head? = pts.head?) ∧
      (∀ (last : PlacePoint) (rem : List PlacePoint), rem ≠ [] →
        selectIdx last rem < rem.length ∧
          (∀ j, j < rem.length →
            pointDist last (rem.getD (selectIdx last rem) default) ≤
              pointDist last (rem.getD j default)) ∧
          (∀ m, m < selectIdx last rem →
            pointDist last (rem.getD (selectIdx last rem) default) <
              pointDist last (rem.getD m default))) ∧
      (∀ (pts : List PlacePoint) (p : PlacePoint), (∀ q ∈ pts, q = p) →
        order_by_proximity pts = pts) := by
  refine ⟨?_, selectIdx_first_min, ?_⟩
  · intro pts hne
    match pts, hne with
    | q :: t, _ => simp [order_by_proximity]
  · intro pts p hall
    match pts with
    | [] => simp [order_by_proximity]
    | q :: t =>
      have hq : q = p := hall q (by simp)
      simp only [order_by_proximity]
      rw [hq, greedyFuel_const p t.length t rfl
        (fun x hx => hall x (List.mem_cons_of_mem q hx))]

theorem greedy_seed_and_first_min_tie_break_witness :
    (∀ q ∈ [samplePoint "a", samplePoint "a"], q = samplePoint "a") ∧
      order_by_proximity [samplePoint "a", samplePoint "a"] =
        [samplePoint "a", samplePoint "a"] :=
  ⟨by simp, greedy_seed_and_first_min_tie_break.2.2 [samplePoint "a", samplePoint "a"]
    (samplePoint "a") (by simp)⟩
